import Mathlib

/-!
Verification of the conversational tool-orchestration and memory-window engine
of the genesis-ai-app repository.

Embedded components (shallow embedding, translated from the Python source):

* the chain validator inside `format_messages_with_memory`
  (apps/rest_api/v1/routers/llm_router.py, lines 84-201);
* the history window builder `SessionService.get_history`
  (src/genesis/infrastructure/database/session_service.py, lines 71-157);
* the tool dispatcher `execute_tool` / `_handle_tool_calls`
  (llm_router.py, lines 368-503) with an explicit completion-schedule model
  of `asyncio.gather`;
* the summary and decision calls of `QwenLLMService`
  (src/genesis/infrastructure/llm/qwen_service.py) and the per-turn
  orchestration of `llm_with_tools` (llm_router.py, lines 221-362).

External collaborators (json.loads / json.dumps, the database rows, the
reasoning-model HTTP client, the registered tool functions) are parameters of
the embedding; everything the repository itself computes is translated from
the source.
-/

namespace Genesis

/-- One entry of an assistant message tool_calls list. The source reads
tool_call.get("id") and tool_call.get("function", ...).get("name"); a missing
key is modelled as none. The arguments payload is carried verbatim. -/
structure ToolCallEntry where
  id : Option String
  name : Option String
  arguments : Option String
deriving DecidableEq

/-- A chat-message dict as stored and exchanged by the router. role and
content are present on every message this application builds (a missing or
null content is folded to the empty string, which is how every consumer in
the source reads it); tool_calls, tool_call_id and name model optional dict
keys, none meaning the key is absent. -/
structure Msg where
  role : String
  content : String
  tool_calls : Option (List ToolCallEntry)
  tool_call_id : Option String
  name : Option String
deriving DecidableEq

/-- Python truthiness-guarded equality used by the matching rule:
(x and x == y) with x, y optional strings; the empty string is falsy. -/
def truthyEq (a b : Option String) : Bool :=
  match a with
  | some s => (s != "") && (b == some s)
  | none => false

/-- The matching rule of llm_router.py (lines 107-108 and 144-145): a
tool_calls entry matches a tool message when the entry id equals the message
tool_call_id, falling back to the function name against the message name. -/
def tcMatches (tc : ToolCallEntry) (m : Msg) : Bool :=
  truthyEq tc.id m.tool_call_id || truthyEq tc.name m.name

/-- Whether prev is an assistant message whose tool_calls list (if the key is
present) contains an entry matching the tool message m (lines 96-112). -/
def isMatchingAssistant (m prev : Msg) : Bool :=
  (prev.role == "assistant") && (prev.tool_calls.getD []).any (fun tc => tcMatches tc m)

/-- Pass 1 keep-condition (lines 93-117): a tool message is kept only when an
earlier message of the original history is a matching assistant message. -/
def keepMsg (seen : List Msg) (m : Msg) : Bool :=
  if m.role == "tool" then seen.any (fun prev => isMatchingAssistant m prev) else true

/-- Pass 1 of the chain validator: scan forward, dropping orphan tool
messages; the backward search ranges over the whole original prefix (kept or
skipped), which the accumulator seen reproduces. -/
def pass1Go (seen : List Msg) : List Msg → List Msg
  | [] => []
  | m :: rest =>
    if keepMsg seen m then m :: pass1Go (seen ++ [m]) rest
    else pass1Go (seen ++ [m]) rest

/-- Pass 1 of the chain validator (llm_router.py, lines 87-121). -/
def pass1 (l : List Msg) : List Msg := pass1Go [] l

/-- The response-collection scan of pass 2 (lines 136-150): walk forward from
the assistant message; a tool message is collected when it matches an entry,
a user or assistant message stops the scan, and any other message (for
example a system message) is passed over without stopping the scan. -/
def collectResponses (tcs : List ToolCallEntry) : List Msg → List Msg
  | [] => []
  | m :: rest =>
    if m.role == "tool" then
      if tcs.any (fun tc => tcMatches tc m) then m :: collectResponses tcs rest
      else collectResponses tcs rest
    else if m.role == "user" || m.role == "assistant" then []
    else collectResponses tcs rest

/-- The skip count of the incomplete-chain branch (lines 181-185): the number
of contiguous tool messages immediately following the assistant message. -/
def countLeadingTools : List Msg → Nat
  | [] => 0
  | m :: rest => if m.role == "tool" then countLeadingTools rest + 1 else 0

/-- The assistant message rebuilt by pass 2 (lines 155-159): role, content
with empty-string default, and the original tool_calls value. -/
def emitAssistant (m : Msg) : Msg :=
  { role := "assistant", content := m.content, tool_calls := m.tool_calls,
    tool_call_id := none, name := none }

/-- The tool message rebuilt by pass 2 (lines 163-171): role, content, and
tool_call_id / name exactly when those keys are present. -/
def emitTool (m : Msg) : Msg :=
  { role := "tool", content := m.content, tool_calls := none,
    tool_call_id := m.tool_call_id, name := m.name }

/-- The plain message rebuilt by pass 2 (lines 192-195): role and content. -/
def emitPlain (m : Msg) : Msg :=
  { role := m.role, content := m.content, tool_calls := none,
    tool_call_id := none, name := none }

/-- Pass 2 of the chain validator (lines 124-197), written with explicit loop
fuel: the while loop advances its index by at least one per iteration, so
fuel equal to the list length (supplied by pass2) makes the fuel-exhaustion
arm unreachable. A complete assistant group is emitted followed by the
collected responses, and the index then skips len(tool_responses) positions;
an incomplete group is dropped together with the contiguous tool messages
after it; a top-level tool message is dropped; anything else passes through
as a plain role/content message. -/
def pass2Go : Nat → List Msg → List Msg
  | _, [] => []
  | 0, _ :: _ => []
  | fuel + 1, m :: rest =>
    if m.role == "assistant" && m.tool_calls.isSome then
      if (collectResponses (m.tool_calls.getD []) rest).length == (m.tool_calls.getD []).length then
        emitAssistant m ::
          ((collectResponses (m.tool_calls.getD []) rest).map emitTool
            ++ pass2Go fuel (rest.drop (collectResponses (m.tool_calls.getD []) rest).length))
      else
        pass2Go fuel (rest.drop (countLeadingTools rest))
    else if m.role == "tool" then
      pass2Go fuel rest
    else
      emitPlain m :: pass2Go fuel rest

/-- Pass 2 of the chain validator, at its natural fuel. -/
def pass2 (l : List Msg) : List Msg := pass2Go l.length l

/-- The two-pass chain validator of format_messages_with_memory
(llm_router.py, lines 84-201). -/
def chainValidator (l : List Msg) : List Msg := pass1 l |> pass2

/-- The optional leading system message (line 74-75); Python truthiness makes
an empty prompt produce no message. -/
def systemMsgOf (sysPrompt : Option String) : List Msg :=
  match sysPrompt with
  | some sp => if sp == "" then [] else [⟨"system", sp, none, none, none⟩]
  | none => []

/-- The current-query user message appended at line 207. -/
def userMsgOf (query : String) : Msg := ⟨"user", query, none, none, none⟩

/-- format_messages_with_memory (llm_router.py, lines 64-209): optional
system prompt, then the validated history window, then the new user query. -/
def format_messages_with_memory (sysPrompt : Option String) (history : List Msg)
    (query : String) : List Msg :=
  systemMsgOf sysPrompt ++ chainValidator history ++ [userMsgOf query]

/-! ### Structural predicates about validator output

wellChained and i1holds express the amended window invariants; claimI2 and
the pass-through filter express claim C1 exactly as the spec states it
(needed to exhibit its failure). -/

/-- Every tool message in the list has, somewhere earlier (accumulated in
seen), an assistant message whose tool_calls contains a matching entry:
invariant I1 of the spec, scanned left to right. -/
def i1holds (seen : List Msg) : List Msg → Bool
  | [] => true
  | m :: rest =>
    (if m.role == "tool" then seen.any (fun prev => isMatchingAssistant m prev) else true)
      && i1holds (seen ++ [m]) rest

/-- Structural well-formedness of a validated window: every assistant message
carrying a tool_calls key is immediately followed by exactly as many tool
messages as it has entries, each matching some entry, and no tool message
occurs anywhere else. Written with the same loop fuel device as pass2Go. -/
def wellChainedGo : Nat → List Msg → Bool
  | _, [] => true
  | 0, _ :: _ => true
  | fuel + 1, m :: rest =>
    if m.role == "assistant" && m.tool_calls.isSome then
      ((rest.takeWhile (fun r => r.role == "tool")).length == (m.tool_calls.getD []).length)
        && (rest.takeWhile (fun r => r.role == "tool")).all
            (fun r => (m.tool_calls.getD []).any (fun tc => tcMatches tc r))
        && wellChainedGo fuel (rest.drop (rest.takeWhile (fun r => r.role == "tool")).length)
    else
      (m.role != "tool") && wellChainedGo fuel rest

/-- wellChainedGo at its natural fuel. -/
def wellChained (l : List Msg) : Bool := wellChainedGo l.length l

/-- A plain pass-through message in the sense of the code paths: a user
message, or an assistant message without a tool_calls key. -/
def isPlainUA (m : Msg) : Bool :=
  m.role == "user" || (m.role == "assistant" && m.tool_calls.isNone)

/-- Modelled from the claim wording of C1: a plain user, system, or
assistant-without-tool_calls message, all of which the claim says pass
through with relative order preserved. -/
def isPlainAll (m : Msg) : Bool :=
  m.role == "user" || m.role == "system" || (m.role == "assistant" && m.tool_calls.isNone)

/-- Modelled from the claim wording of C1/I2: the messages following an
assistant message before the next user or assistant message. -/
def beforeNextUA : List Msg → List Msg
  | [] => []
  | m :: rest =>
    if m.role == "user" || m.role == "assistant" then []
    else m :: beforeNextUA rest

/-- Modelled from the claim wording of C1/I2: each assistant message carrying
tool_calls is followed, before the next user/assistant message, by exactly
one tool message per entry of its tool_calls list. -/
def claimI2 : List Msg → Bool
  | [] => true
  | m :: rest =>
    (if m.role == "assistant" && m.tool_calls.isSome then
      (m.tool_calls.getD []).all (fun tc =>
        ((beforeNextUA rest).filter (fun r => r.role == "tool")).countP
          (fun r => tcMatches tc r) == 1)
     else true) && claimI2 rest

/-- Modelled from the claim wording of C1, as one decidable conjunction over
one input: part (a) = I1 on the output, part (b) = exactly-one-per-entry on
the output, part (c) = plain user/system/assistant messages pass through in
order. -/
def claimC1holds (l : List Msg) : Bool :=
  i1holds [] (chainValidator l)
    && claimI2 (chainValidator l)
    && decide ((chainValidator l).filter isPlainAll = (l.filter isPlainAll).map emitPlain)

/-! ### The history window builder (SessionService.get_history) -/

/-- One persisted ChatMessage row, as read back newest-first: the role column
and the raw content string written by update_history via json.dumps. -/
structure StoredMsg where
  role : String
  content : String
deriving DecidableEq

/-- The expansion condition of get_history (session_service.py, lines
117-136): the oldest window message parses to a tool message or to an
assistant message whose dict carries a tool_calls key (presence, not
non-emptiness); a parse failure counts as a safe endpoint. The external
json.loads is the parse parameter (none = failure to parse into a
message-shaped dict). -/
def isChainMsg (parse : String → Option Msg) (sm : StoredMsg) : Bool :=
  match parse sm.content with
  | some m => m.role == "tool" || (m.role == "assistant" && m.tool_calls.isSome)
  | none => false

/-- The backward-expansion loop of get_history (lines 109-136): window is the
newest-first candidate window, remaining the older part of the fetched
buffer; while the oldest window message is chain-like, pull one older message
in; stop on a safe boundary or when the buffer is exhausted. -/
def expand (parse : String → Option Msg) : List StoredMsg → List StoredMsg → List StoredMsg
  | window, [] => window
  | window, older :: rest =>
    match window.getLast? with
    | none => window
    | some last =>
      if isChainMsg parse last then expand parse (window ++ [older]) rest
      else window

/-- The fetched buffer (lines 84-93): newest-first rows, limited to twice the
configured window size. -/
def recentOf (N : Nat) (allDesc : List StoredMsg) : List StoredMsg :=
  allDesc.take (2 * N)

/-- The naive candidate window (lines 100-103): the newest N of the buffer. -/
def truncatedOf (N : Nat) (allDesc : List StoredMsg) : List StoredMsg :=
  (recentOf N allDesc).take N

/-- The final newest-first window after smart expansion (lines 95-136). -/
def windowDesc (N : Nat) (parse : String → Option Msg) (allDesc : List StoredMsg) :
    List StoredMsg :=
  if (recentOf N allDesc).isEmpty then []
  else expand parse (truncatedOf N allDesc)
    ((recentOf N allDesc).drop (truncatedOf N allDesc).length)

/-- The window in chronological order (line 139). -/
def windowOrdered (N : Nat) (parse : String → Option Msg) (allDesc : List StoredMsg) :
    List StoredMsg :=
  (windowDesc N parse allDesc).reverse

/-- The per-row rendering of lines 148-156: parse the stored content; on
failure fall back to a dict of the stored role column and the raw content. -/
def renderMsg (parse : String → Option Msg) (sm : StoredMsg) : Msg :=
  match parse sm.content with
  | some m => m
  | none => ⟨sm.role, sm.content, none, none, none⟩

/-- SessionService.get_history (session_service.py, lines 71-157), with the
database read and json.loads as parameters: allDesc is the full newest-first
row list of the session and parse the message parser. -/
def get_history (N : Nat) (parse : String → Option Msg) (allDesc : List StoredMsg) :
    List Msg :=
  (windowOrdered N parse allDesc).map (renderMsg parse)

/-- Modelled from the claim wording of C4: expansion happens exactly while
the oldest message is a tool message or an assistant message carrying
NON-EMPTY tool_calls. The code (isChainMsg) instead tests key presence. -/
def claimChainMsg (parse : String → Option Msg) (sm : StoredMsg) : Bool :=
  match parse sm.content with
  | some m => m.role == "tool" || (m.role == "assistant" && !(m.tool_calls.getD []).isEmpty)
  | none => false

/-! ### The tool dispatcher (execute_tool, asyncio.gather) -/

/-- One tool call requested by the reasoning model: the fields of the OpenAI
tool-call object that execute_tool reads (tc.id, tc.function.name,
tc.function.arguments). -/
structure ToolCallReq where
  id : String
  name : String
  arguments : String
deriving DecidableEq

/-- The unknown-tool error content of execute_tool (line 467). -/
def notFoundText (toolName : String) : String :=
  "错误: 找不到名为 \x27" ++ toolName ++ "\x27 的工具。"

/-- The failure content of execute_tool (line 502). -/
def failText (e : String) : String := "执行失败: " ++ e

/-- Argument handling of execute_tool (line 480): an empty (falsy) arguments
string becomes the empty kwargs dict, otherwise json.loads runs and may
fail. The structured argument type and the parser are parameters. -/
def parseToolArgs {α : Type} (parseJson : String → Except String α) (emptyArgs : α)
    (s : String) : Except String α :=
  if s == "" then Except.ok emptyArgs else parseJson s

/-- execute_tool (llm_router.py, lines 460-503): look the tool up in the
registry; unknown tool, argument-parse failure and tool failure each become
an error-content tool message; success becomes the stringified return value
(tools are modelled as returning their stringified value, str being total).
No case propagates a failure. -/
def execute_tool {α : Type} (reg : String → Option (α → Except String String))
    (parseJson : String → Except String α) (emptyArgs : α) (tc : ToolCallReq) : Msg :=
  match reg tc.name with
  | none => ⟨"tool", notFoundText tc.name, none, some tc.id, some tc.name⟩
  | some f =>
    match parseToolArgs parseJson emptyArgs tc.arguments with
    | Except.error e => ⟨"tool", failText e, none, some tc.id, some tc.name⟩
    | Except.ok args =>
      match f args with
      | Except.ok r => ⟨"tool", r, none, some tc.id, some tc.name⟩
      | Except.error e => ⟨"tool", failText e, none, some tc.id, some tc.name⟩

/-- Write one completed result into its input-indexed slot: the fan-in half
of asyncio.gather. -/
def fillSlot {β : Type} : List (Option β) → Nat → β → List (Option β)
  | [], _, _ => []
  | _ :: rest, 0, b => some b :: rest
  | s :: rest, n + 1, b => s :: fillSlot rest n b

/-- Run the calls in completion order sched (a list of input indices), each
completion writing its own slot; indices out of range do nothing. -/
def gatherExec {α β : Type} (calls : List α) (run : α → β) :
    List Nat → List (Option β) → List (Option β)
  | [], slots => slots
  | i :: sched, slots =>
    match calls[i]? with
    | some c => gatherExec calls run sched (fillSlot slots i (run c))
    | none => gatherExec calls run sched slots

/-- The completion-schedule model of asyncio.gather (llm_router.py, lines
405-406): one slot per input call, filled in an arbitrary completion order
sched, returned in input-slot order. -/
def asyncGather {α β : Type} (calls : List α) (run : α → β) (sched : List Nat) :
    List (Option β) :=
  gatherExec calls run sched (calls.map (fun _ => (none : Option β)))

/-! ### The reasoning-model calls and the turn orchestration -/

/-- The fixed apology of get_summary_from_tool_results (qwen_service.py,
line 162). -/
def apologyText : String := "抱歉，我在总结工具执行结果时遇到了一个问题。"

/-- get_summary_from_tool_results (qwen_service.py, lines 126-162): the
summary API call either returns content or raises; a raise is caught and
degrades to the fixed apology string. The call outcome is the parameter. -/
def get_summary_from_tool_results (callOutcome : Except Unit String) : String :=
  match callOutcome with
  | Except.ok s => s
  | Except.error _ => apologyText

/-- The reasoning-model decision message: content (None folded to the empty
string, exactly how every consumer reads it through the or-defaults) and the
requested tool calls (a null list folded to the empty list, matching the
truthiness test at line 298). -/
structure Decision where
  content : String
  tool_calls : List ToolCallReq
deriving DecidableEq

/-- The tool_calls entry rebuilt by _handle_tool_calls (lines 390-399). -/
def toolCallEntryOf (tc : ToolCallReq) : ToolCallEntry :=
  ⟨some tc.id, some tc.name, some tc.arguments⟩

/-- The assistant message recording the requested calls (lines 382-399). -/
def assistantWithCalls (decisionContent : String) (tcs : List ToolCallReq) : Msg :=
  ⟨"assistant", decisionContent, some (tcs.map toolCallEntryOf), none, none⟩

/-- The summary context built by _handle_tool_calls (lines 409-421): the
system messages of the outbound context, the current user message, the
assistant-with-calls message, then the tool results in input order. -/
def messagesForSummary {α : Type} (reg : String → Option (α → Except String String))
    (parseJson : String → Except String α) (emptyArgs : α)
    (messages_for_llm : List Msg) (current_user_message : Msg)
    (decisionContent : String) (tcs : List ToolCallReq) : List Msg :=
  (messages_for_llm.filter (fun m => m.role == "system"))
    ++ [current_user_message, assistantWithCalls decisionContent tcs]
    ++ tcs.map (execute_tool reg parseJson emptyArgs)

/-- _handle_tool_calls (llm_router.py, lines 368-442): dispatch the calls
(asyncio.gather returns the results in input order; asyncGather below proves
that order independent of the completion schedule), ask for a summary, and
return the final answer together with the batch to persist: user message,
assistant-with-calls, every tool result, final assistant message. -/
def handle_tool_calls {α : Type} (reg : String → Option (α → Except String String))
    (parseJson : String → Except String α) (emptyArgs : α)
    (messages_for_llm : List Msg) (current_user_message : Msg)
    (decisionContent : String) (tcs : List ToolCallReq)
    (summaryCall : List Msg → Except Unit String) : String × List Msg :=
  (get_summary_from_tool_results
      (summaryCall (messagesForSummary reg parseJson emptyArgs messages_for_llm
        current_user_message decisionContent tcs)),
   [current_user_message, assistantWithCalls decisionContent tcs]
     ++ tcs.map (execute_tool reg parseJson emptyArgs)
     ++ [⟨"assistant",
          get_summary_from_tool_results
            (summaryCall (messagesForSummary reg parseJson emptyArgs messages_for_llm
              current_user_message decisionContent tcs)),
          none, none, none⟩])

/-- The fixed fallback of _handle_direct_answer (line 452). -/
def fallbackAnswer : String := "抱歉，我无法回答。"

/-- _handle_direct_answer (llm_router.py, lines 445-457). -/
def handle_direct_answer (current_user_message : Msg) (d : Decision) : String × List Msg :=
  ((if d.content == "" then fallbackAnswer else d.content),
   [current_user_message,
    ⟨"assistant", (if d.content == "" then fallbackAnswer else d.content), none, none, none⟩])

/-- llm_with_tools (llm_router.py, lines 221-362) as a state transformer on
the persisted store (chronological row list): build the outbound context from
the window, request a decision (get_model_decision re-raises any failure, so
a failing decision call aborts the turn before anything is written), branch
on the requested tool calls, and append the resulting batch (update_history
writes the dump of each message as one row). dump models json.dumps plus the
role column; decisionCall and summaryCall model the two model API calls. -/
def llm_with_tools {α : Type} (N : Nat) (parse : String → Option Msg)
    (dump : Msg → StoredMsg) (reg : String → Option (α → Except String String))
    (parseJson : String → Except String α) (emptyArgs : α)
    (store : List StoredMsg) (query : String) (sysPrompt : Option String)
    (decisionCall : List Msg → Except Unit Decision)
    (summaryCall : List Msg → Except Unit String) :
    List StoredMsg × Except Unit String :=
  match decisionCall (format_messages_with_memory sysPrompt
      (get_history N parse store.reverse) query) with
  | Except.error _ => (store, Except.error ())
  | Except.ok d =>
    if d.tool_calls.isEmpty then
      (store ++ (handle_direct_answer (userMsgOf query) d).2.map dump,
       Except.ok (handle_direct_answer (userMsgOf query) d).1)
    else
      (store ++ (handle_tool_calls reg parseJson emptyArgs
          (format_messages_with_memory sysPrompt (get_history N parse store.reverse) query)
          (userMsgOf query) d.content d.tool_calls summaryCall).2.map dump,
       Except.ok (handle_tool_calls reg parseJson emptyArgs
          (format_messages_with_memory sysPrompt (get_history N parse store.reverse) query)
          (userMsgOf query) d.content d.tool_calls summaryCall).1)

/-! ### Canonical form of validator output

Canon characterises the lists the chain validator produces: plain messages
with only role and content, and complete assistant groups followed
immediately by their matching tool results. It drives the idempotence and
invariant proofs. -/

/-- Canonical validated windows. -/
inductive Canon : List Msg → Prop
  | nil : Canon []
  | plain (m : Msg) (rest : List Msg) :
      m.role ≠ "tool" →
      m.tool_calls = none → m.tool_call_id = none → m.name = none →
      Canon rest → Canon (m :: rest)
  | group (m : Msg) (tcs : List ToolCallEntry) (tools rest : List Msg) :
      m.role = "assistant" → m.tool_calls = some tcs →
      m.tool_call_id = none → m.name = none →
      tools.length = tcs.length →
      (∀ r ∈ tools, r.role = "tool" ∧ r.tool_calls = none ∧
        tcs.any (fun tc => tcMatches tc r) = true) →
      Canon rest → Canon (m :: (tools ++ rest))

/-! ### Concrete inputs for counterexamples and witnesses -/

/-- Entry one of the demo assistant message: id 1, function name f. -/
def tcE1 : ToolCallEntry := ⟨some "1", some "f", some "argsf"⟩

/-- Entry two of the demo assistant message: id 2, function name g. -/
def tcE2 : ToolCallEntry := ⟨some "2", some "g", some "argsg"⟩

/-- Demo assistant message requesting f then g. -/
def asst0 : Msg := ⟨"assistant", "", some [tcE1, tcE2], none, none⟩

/-- Demo system message. -/
def sys0 : Msg := ⟨"system", "S", none, none, none⟩

/-- A tool result named f whose id matches no entry. -/
def tRes1 : Msg := ⟨"tool", "r1", none, some "x1", some "f"⟩

/-- A second tool result named f whose id matches no entry. -/
def tRes2 : Msg := ⟨"tool", "r2", none, some "x2", some "f"⟩

/-- C1 counterexample input: a system message inside the group, and two tool
results that both match entry f by name while entry g has none. -/
def exC1 : List Msg := [asst0, sys0, tRes1, tRes2]

/-- A tool result for entry g, by id. -/
def tResG : Msg := ⟨"tool", "rg", none, some "2", some "g"⟩

/-- A tool result for entry f, by id. -/
def tResF : Msg := ⟨"tool", "rf", none, some "1", some "f"⟩

/-- C8 counterexample input: the stored responses appear in the order g, f
while the tool_calls list requests f, g. -/
def exC8 : List Msg := [asst0, tResG, tResF]

/-- Demo calculator tool for the witnesses: always returns 4. -/
def calcFn : Nat → Except String String := fun _ => Except.ok "4"

/-- Demo slow tool for the order witness. -/
def slowFn : Nat → Except String String := fun _ => Except.ok "slow-result"

/-- Demo failing tool. -/
def boomFn : Nat → Except String String := fun _ => Except.error "boom"

/-- Demo registry holding calculate, slow and boom. -/
def regW : String → Option (Nat → Except String String) := fun n =>
  if n == "calculate" then some calcFn
  else if n == "slow" then some slowFn
  else if n == "boom" then some boomFn
  else none

/-- Demo argument parser: every non-empty payload parses to 0. -/
def parseJsonW : String → Except String Nat := fun _ => Except.ok 0

/-- A call to the slow tool. -/
def tcSlow : ToolCallReq := ⟨"id-a", "slow", "pa"⟩

/-- A call to the calculator. -/
def tcCalc : ToolCallReq := ⟨"id-b", "calculate", "pb"⟩

/-- A call to a tool that is not registered. -/
def tcUnknown : ToolCallReq := ⟨"id-c", "unknown_tool", "pc"⟩

/-- Demo stored-message parser for the window-builder examples: maps the raw
content strings U, A, AE, T to fixed parsed messages and fails elsewhere. -/
def parseW : String → Option Msg := fun s =>
  if s == "U" then some ⟨"user", "hello", none, none, none⟩
  else if s == "A" then some ⟨"assistant", "calling", some [tcE1], none, none⟩
  else if s == "AE" then some ⟨"assistant", "empty", some [], none, none⟩
  else if s == "T" then some ⟨"tool", "4", none, some "1", some "f"⟩
  else none

/-- C3 witness store, newest first: a tool result, its assistant parent, and
an older user message; with N = 1 the naive window cuts the chain. -/
def storeC3 : List StoredMsg := [⟨"tool", "T"⟩, ⟨"assistant", "A"⟩, ⟨"user", "U"⟩]

/-- C4 counterexample store, newest first: the newest message parses to an
assistant with an EMPTY tool_calls list, the older one to a user message. -/
def storeC4 : List StoredMsg := [⟨"assistant", "AE"⟩, ⟨"user", "U"⟩]

/-- C9 counterexample store, newest first: a well-formed row and an older row
whose content fails to parse. -/
def storeC9 : List StoredMsg := [⟨"user", "U"⟩, ⟨"user", "BAD"⟩]

/-- Demo dump function (json.dumps plus the role column) for the turn
witnesses. -/
def dumpW : Msg → StoredMsg := fun m => ⟨m.role, m.content⟩

/-- Demo decision call for the degraded-summary witness: one calculate call. -/
def decisionCallW : List Msg → Except Unit Decision := fun _ => Except.ok ⟨"", [tcCalc]⟩

/-- Demo decision call that always fails, for the fatal-decision witness. -/
def decisionFailW : List Msg → Except Unit Decision := fun _ => Except.error ()

/-- Demo summary call that always fails. -/
def summaryFailW : List Msg → Except Unit String := fun _ => Except.error ()

/-! ## Theorems -/

/-! ### Generic list helpers -/

theorem mem_take_mono {α : Type} {x : α} {l : List α} {k j : Nat} (hkj : k ≤ j)
    (hx : x ∈ l.take k) : x ∈ l.take j := by
  have h : l.take k = (l.take j).take k := by
    rw [List.take_take, min_eq_left hkj]
  rw [h] at hx
  exact List.take_subset _ _ hx

/-! ### Fuel invariance of the pass-2 loop -/

theorem pass2Go_fuel : ∀ (f₁ : Nat) (l : List Msg) (f₂ : Nat),
    l.length ≤ f₁ → l.length ≤ f₂ → pass2Go f₁ l = pass2Go f₂ l := by
  intro f₁
  induction f₁ with
  | zero =>
    intro l f₂ h1 _
    have hl : l = [] := List.eq_nil_of_length_eq_zero (Nat.le_zero.mp h1)
    subst hl
    cases f₂ <;> rfl
  | succ n ih =>
    intro l f₂ h1 h2
    cases l with
    | nil => cases f₂ <;> rfl
    | cons m rest =>
      cases f₂ with
      | zero => simp at h2
      | succ k =>
        simp only [List.length_cons, Nat.add_le_add_iff_right] at h1 h2
        simp only [pass2Go]
        cases hA : (m.role == "assistant" && m.tool_calls.isSome) with
        | true =>
          simp only [if_true]
          cases hlen : ((collectResponses (m.tool_calls.getD []) rest).length
              == (m.tool_calls.getD []).length) with
          | true =>
            simp only [if_true]
            rw [ih (rest.drop (collectResponses (m.tool_calls.getD []) rest).length) k
              (le_trans (by simp only [List.length_drop]; omega) h1)
              (le_trans (by simp only [List.length_drop]; omega) h2)]
          | false =>
            simp only [Bool.false_eq_true, if_false]
            rw [ih (rest.drop (countLeadingTools rest)) k
              (le_trans (by simp only [List.length_drop]; omega) h1)
              (le_trans (by simp only [List.length_drop]; omega) h2)]
        | false =>
          simp only [Bool.false_eq_true, if_false]
          cases hT : (m.role == "tool") with
          | true => simp only [if_true]; exact ih rest k h1 h2
          | false =>
            simp only [Bool.false_eq_true, if_false]
            rw [ih rest k h1 h2]

theorem wellChainedGo_fuel : ∀ (f₁ : Nat) (l : List Msg) (f₂ : Nat),
    l.length ≤ f₁ → l.length ≤ f₂ → wellChainedGo f₁ l = wellChainedGo f₂ l := by
  intro f₁
  induction f₁ with
  | zero =>
    intro l f₂ h1 _
    have hl : l = [] := List.eq_nil_of_length_eq_zero (Nat.le_zero.mp h1)
    subst hl
    cases f₂ <;> rfl
  | succ n ih =>
    intro l f₂ h1 h2
    cases l with
    | nil => cases f₂ <;> rfl
    | cons m rest =>
      cases f₂ with
      | zero => simp at h2
      | succ k =>
        simp only [List.length_cons, Nat.add_le_add_iff_right] at h1 h2
        simp only [wellChainedGo]
        cases hA : (m.role == "assistant" && m.tool_calls.isSome) with
        | true =>
          simp only [if_true]
          rw [ih (rest.drop (rest.takeWhile (fun r => r.role == "tool")).length) k
            (le_trans (by simp only [List.length_drop]; omega) h1)
            (le_trans (by simp only [List.length_drop]; omega) h2)]
        | false =>
          simp only [Bool.false_eq_true, if_false]
          rw [ih rest k h1 h2]

/-! ### Facts about the response-collection scan -/

theorem collect_sublist : ∀ (tcs : List ToolCallEntry) (l : List Msg),
    List.Sublist (collectResponses tcs l) l := by
  intro tcs l
  induction l with
  | nil => simp [collectResponses]
  | cons m rest ih =>
    simp only [collectResponses]
    cases hT : (m.role == "tool") with
    | true =>
      simp only [if_true]
      cases hM : tcs.any (fun tc => tcMatches tc m) with
      | true => simp only [if_true]; exact ih.cons₂ m
      | false => simp only [Bool.false_eq_true, if_false]; exact ih.cons m
    | false =>
      simp only [Bool.false_eq_true, if_false]
      cases hUA : (m.role == "user" || m.role == "assistant") with
      | true => simp only [if_true]; exact List.nil_sublist _
      | false => simp only [Bool.false_eq_true, if_false]; exact ih.cons m

theorem collect_mem : ∀ (tcs : List ToolCallEntry) (l : List Msg) (r : Msg),
    r ∈ collectResponses tcs l →
    r.role = "tool" ∧ tcs.any (fun tc => tcMatches tc r) = true := by
  intro tcs l
  induction l with
  | nil => intro r hr; simp [collectResponses] at hr
  | cons m rest ih =>
    intro r hr
    simp only [collectResponses] at hr
    cases hT : (m.role == "tool") with
    | true =>
      rw [hT] at hr
      simp only [if_true] at hr
      cases hM : tcs.any (fun tc => tcMatches tc m) with
      | true =>
        rw [hM] at hr
        simp only [if_true, List.mem_cons] at hr
        cases hr with
        | inl h => subst h; exact ⟨beq_iff_eq.mp hT, hM⟩
        | inr h => exact ih r h
      | false =>
        rw [hM] at hr
        simp only [Bool.false_eq_true, if_false] at hr
        exact ih r hr
    | false =>
      rw [hT] at hr
      simp only [Bool.false_eq_true, if_false] at hr
      cases hUA : (m.role == "user" || m.role == "assistant") with
      | true => rw [hUA] at hr; simp at hr
      | false =>
        rw [hUA] at hr
        simp only [Bool.false_eq_true, if_false] at hr
        exact ih r hr

theorem collect_take_not_ua : ∀ (tcs : List ToolCallEntry) (l : List Msg) (x : Msg),
    x ∈ l.take (collectResponses tcs l).length →
    x.role ≠ "user" ∧ x.role ≠ "assistant" := by
  intro tcs l
  induction l with
  | nil => intro x hx; simp at hx
  | cons m rest ih =>
    intro x hx
    simp only [collectResponses] at hx
    cases hT : (m.role == "tool") with
    | true =>
      rw [hT] at hx
      simp only [if_true] at hx
      have hTole : m.role = "tool" := beq_iff_eq.mp hT
      cases hM : tcs.any (fun tc => tcMatches tc m) with
      | true =>
        rw [hM] at hx
        simp only [if_true, List.length_cons, List.take_succ_cons, List.mem_cons] at hx
        cases hx with
        | inl h => subst h; rw [hTole]; exact ⟨by decide, by decide⟩
        | inr h => exact ih x h
      | false =>
        rw [hM] at hx
        simp only [Bool.false_eq_true, if_false] at hx
        cases hc : (collectResponses tcs rest).length with
        | zero => rw [hc] at hx; simp at hx
        | succ c =>
          rw [hc] at hx
          simp only [List.take_succ_cons, List.mem_cons] at hx
          cases hx with
          | inl h => subst h; rw [hTole]; exact ⟨by decide, by decide⟩
          | inr h =>
            apply ih
            rw [hc]
            exact mem_take_mono (Nat.le_succ c) h
    | false =>
      rw [hT] at hx
      simp only [Bool.false_eq_true, if_false] at hx
      cases hUA : (m.role == "user" || m.role == "assistant") with
      | true => rw [hUA] at hx; simp at hx
      | false =>
        rw [hUA] at hx
        have hRoles : m.role ≠ "user" ∧ m.role ≠ "assistant" := by
          constructor
          · intro h
            rw [h] at hUA
            simp at hUA
          · intro h
            rw [h] at hUA
            simp at hUA
        simp only [Bool.false_eq_true, if_false] at hx
        cases hc : (collectResponses tcs rest).length with
        | zero => rw [hc] at hx; simp at hx
        | succ c =>
          rw [hc] at hx
          simp only [List.take_succ_cons, List.mem_cons] at hx
          cases hx with
          | inl h => subst h; exact hRoles
          | inr h =>
            apply ih
            rw [hc]
            exact mem_take_mono (Nat.le_succ c) h

theorem take_countLeadingTools : ∀ (l : List Msg) (x : Msg),
    x ∈ l.take (countLeadingTools l) → x.role = "tool" := by
  intro l
  induction l with
  | nil => intro x hx; simp at hx
  | cons m rest ih =>
    intro x hx
    simp only [countLeadingTools] at hx
    cases hT : (m.role == "tool") with
    | true =>
      rw [hT] at hx
      simp only [if_true, List.take_succ_cons, List.mem_cons] at hx
      cases hx with
      | inl h => subst h; exact beq_iff_eq.mp hT
      | inr h => exact ih x h
    | false =>
      rw [hT] at hx
      simp at hx

/-! ### The canonical form of validator output -/

theorem tcMatches_emitTool (tc : ToolCallEntry) (r : Msg) :
    tcMatches tc (emitTool r) = tcMatches tc r := rfl

theorem canon_head_not_tool {l : List Msg} (h : Canon l) :
    ∀ m, l.head? = some m → m.role ≠ "tool" := by
  cases h with
  | nil => intro m hm; simp at hm
  | plain m rest hrole _ _ _ _ =>
    intro x hx
    simp only [List.head?_cons, Option.some.injEq] at hx
    subst hx
    exact hrole
  | group m tcs tools rest hrole _ _ _ _ _ _ =>
    intro x hx
    simp only [List.head?_cons, Option.some.injEq] at hx
    subst hx
    rw [hrole]
    decide

theorem collect_canon_nil : ∀ (tcs : List ToolCallEntry) {l : List Msg},
    Canon l → collectResponses tcs l = [] := by
  intro tcs l h
  induction h with
  | nil => rfl
  | plain m rest hrole htc htcid hname hrest ih =>
    simp only [collectResponses]
    rw [if_neg (by rw [beq_eq_false_iff_ne.mpr hrole]; simp)]
    cases hUA : (m.role == "user" || m.role == "assistant") with
    | true => rw [if_pos rfl]
    | false =>
      rw [if_neg (by simp)]
      exact ih
  | group m tcs0 tools rest hrole htc htcid hname hlen htools hrest ih =>
    simp only [collectResponses]
    rw [if_neg (by rw [hrole]; decide), if_pos (by rw [hrole]; decide)]

theorem collect_append_tools : ∀ (tcs : List ToolCallEntry) (tools rest : List Msg),
    (∀ r ∈ tools, r.role = "tool" ∧ tcs.any (fun tc => tcMatches tc r) = true) →
    collectResponses tcs (tools ++ rest) = tools ++ collectResponses tcs rest := by
  intro tcs tools
  induction tools with
  | nil => intro rest _; rfl
  | cons t ts ih =>
    intro rest hall
    have ht := hall t (List.mem_cons_self t ts)
    simp only [List.cons_append, collectResponses]
    rw [if_pos (by rw [ht.1]; rfl), if_pos ht.2]
    simp only [List.append_eq]
    rw [ih rest (fun r hr => hall r (List.mem_cons_of_mem t hr))]

theorem takeWhile_tools {tools rest : List Msg}
    (htools : ∀ r ∈ tools, r.role = "tool") (hrest : Canon rest) :
    (tools ++ rest).takeWhile (fun r => r.role == "tool") = tools := by
  induction tools with
  | nil =>
    simp only [List.nil_append]
    cases rest with
    | nil => rfl
    | cons r rest2 =>
      rw [List.takeWhile_cons,
        if_neg (by rw [beq_eq_false_iff_ne.mpr (canon_head_not_tool hrest r rfl)]; simp)]
  | cons t ts ih =>
    simp only [List.cons_append, List.takeWhile_cons]
    rw [if_pos (by rw [(htools t (List.mem_cons_self t ts))]; decide)]
    rw [ih (fun r hr => htools r (List.mem_cons_of_mem t hr))]

theorem canon_pass2_fix : ∀ {l : List Msg}, Canon l →
    ∀ f, l.length ≤ f → pass2Go f l = l := by
  intro l h
  induction h with
  | nil => intro f _; cases f <;> rfl
  | plain m rest hrole htc htcid hname hrest ih =>
    intro f hf
    cases f with
    | zero => simp at hf
    | succ n =>
      simp only [pass2Go]
      rw [if_neg (by rw [htc]; simp)]
      rw [if_neg (by rw [beq_eq_false_iff_ne.mpr hrole]; simp)]
      have hm : emitPlain m = m := by
        cases m with
        | mk r c t ti nm =>
          have h1 : t = none := htc
          have h2 : ti = none := htcid
          have h3 : nm = none := hname
          subst h1; subst h2; subst h3
          rfl
      rw [hm, ih n (by simp only [List.length_cons] at hf; omega)]
  | group m tcs tools rest hrole htc htcid hname hlen htools hrest ih =>
    intro f hf
    cases f with
    | zero => simp at hf
    | succ n =>
      simp only [pass2Go]
      rw [if_pos (by rw [hrole, htc]; simp)]
      have hgd : m.tool_calls.getD [] = tcs := by rw [htc]; rfl
      rw [hgd]
      have hcol : collectResponses tcs (tools ++ rest) = tools := by
        rw [collect_append_tools tcs tools rest
          (fun r hr => ⟨(htools r hr).1, (htools r hr).2.2⟩)]
        rw [collect_canon_nil tcs hrest, List.append_nil]
      rw [hcol]
      rw [if_pos (beq_iff_eq.mpr hlen)]
      have hma : emitAssistant m = m := by
        cases m with
        | mk r c t ti nm =>
          have h1 : r = "assistant" := hrole
          have h2 : ti = none := htcid
          have h3 : nm = none := hname
          subst h1; subst h2; subst h3
          rfl
      have hmt : tools.map emitTool = tools := by
        have hpt : ∀ r ∈ tools, emitTool r = r := by
          intro r hr
          obtain ⟨h1, h2, _⟩ := htools r hr
          cases r with
          | mk rr cc tt tti nnm =>
            have hr1 : rr = "tool" := h1
            have hr2 : tt = none := h2
            subst hr1; subst hr2
            rfl
        calc tools.map emitTool = tools.map id := List.map_congr_left hpt
          _ = tools := List.map_id tools
      rw [hma, hmt, List.drop_left]
      rw [ih n (by simp only [List.length_cons, List.length_append] at hf; omega)]

theorem pass1Go_tools : ∀ (tools rest seen : List Msg) (m : Msg), m ∈ seen →
    (∀ r ∈ tools, isMatchingAssistant r m = true) →
    pass1Go seen (tools ++ rest) = tools ++ pass1Go (seen ++ tools) rest := by
  intro tools
  induction tools with
  | nil => intro rest seen m _ _; simp
  | cons t ts ih =>
    intro rest seen m hm hall
    simp only [List.cons_append, pass1Go]
    have hk : keepMsg seen t = true := by
      unfold keepMsg
      cases hT : (t.role == "tool") with
      | true =>
        rw [if_pos rfl]
        exact List.any_eq_true.mpr ⟨m, hm, hall t (List.mem_cons_self t ts)⟩
      | false => rw [if_neg (by simp)]
    rw [if_pos hk]
    simp only [List.append_eq]
    rw [ih rest (seen ++ [t]) m (List.mem_append.mpr (Or.inl hm))
      (fun r hr => hall r (List.mem_cons_of_mem t hr))]
    rw [List.append_assoc, List.singleton_append]

theorem canon_pass1_fix : ∀ {l : List Msg}, Canon l → ∀ seen, pass1Go seen l = l := by
  intro l h
  induction h with
  | nil => intro seen; rfl
  | plain m rest hrole htc htcid hname hrest ih =>
    intro seen
    simp only [pass1Go]
    have hk : keepMsg seen m = true := by
      unfold keepMsg
      rw [if_neg (by rw [beq_eq_false_iff_ne.mpr hrole]; simp)]
    rw [if_pos hk, ih (seen ++ [m])]
  | group m tcs tools rest hrole htc htcid hname hlen htools hrest ih =>
    intro seen
    simp only [pass1Go]
    have hk : keepMsg seen m = true := by
      unfold keepMsg
      rw [if_neg (by rw [hrole]; decide)]
    rw [if_pos hk]
    have hmatch : ∀ r ∈ tools, isMatchingAssistant r m = true := by
      intro r hr
      unfold isMatchingAssistant
      rw [hrole, htc]
      simp only [Option.getD_some]
      rw [(htools r hr).2.2]
      simp
    rw [pass1Go_tools tools rest (seen ++ [m]) m
      (List.mem_append.mpr (Or.inr (List.mem_singleton.mpr rfl))) hmatch]
    rw [ih ((seen ++ [m]) ++ tools)]

theorem pass2Go_canon : ∀ (f : Nat) (l : List Msg), l.length ≤ f → Canon (pass2Go f l) := by
  intro f
  induction f with
  | zero =>
    intro l hl
    have : l = [] := List.eq_nil_of_length_eq_zero (Nat.le_zero.mp hl)
    subst this
    exact Canon.nil
  | succ n ih =>
    intro l hl
    cases l with
    | nil => exact Canon.nil
    | cons m rest =>
      simp only [List.length_cons, Nat.add_le_add_iff_right] at hl
      simp only [pass2Go]
      cases hA : (m.role == "assistant" && m.tool_calls.isSome) with
      | true =>
        rw [if_pos rfl]
        have hrole : m.role = "assistant" := beq_iff_eq.mp (Bool.and_eq_true _ _ ▸ hA).1
        obtain ⟨tcs, htc⟩ := Option.isSome_iff_exists.mp (Bool.and_eq_true _ _ ▸ hA).2
        have hgd : m.tool_calls.getD [] = tcs := by rw [htc]; rfl
        cases hlen : ((collectResponses (m.tool_calls.getD []) rest).length
            == (m.tool_calls.getD []).length) with
        | true =>
          rw [if_pos rfl]
          have hlen2 : ((collectResponses (m.tool_calls.getD []) rest).map emitTool).length
              = tcs.length := by
            rw [List.length_map, ← hgd]
            exact beq_iff_eq.mp hlen
          have htls : ∀ r ∈ (collectResponses (m.tool_calls.getD []) rest).map emitTool,
              r.role = "tool" ∧ r.tool_calls = none ∧
              tcs.any (fun tc => tcMatches tc r) = true := by
            intro r hr
            obtain ⟨r0, hr0, hr0e⟩ := List.mem_map.mp hr
            obtain ⟨_, hmat⟩ := collect_mem _ _ r0 hr0
            subst hr0e
            refine ⟨rfl, rfl, ?_⟩
            rw [← hgd]
            exact hmat
          exact Canon.group (emitAssistant m) tcs _ _ rfl
            (show (emitAssistant m).tool_calls = some tcs from htc) rfl rfl hlen2 htls
            (ih _ (le_trans (by simp only [List.length_drop]; omega) hl))
        | false =>
          rw [if_neg (by simp)]
          exact ih _ (le_trans (by simp only [List.length_drop]; omega) hl)
      | false =>
        rw [if_neg (by simp)]
        cases hT : (m.role == "tool") with
        | true =>
          rw [if_pos rfl]
          exact ih rest hl
        | false =>
          rw [if_neg (by simp)]
          exact Canon.plain (emitPlain m) _
            (show (emitPlain m).role ≠ "tool" from beq_eq_false_iff_ne.mp hT)
            rfl rfl rfl (ih rest hl)

theorem canon_wellChained : ∀ {l : List Msg}, Canon l →
    ∀ f, l.length ≤ f → wellChainedGo f l = true := by
  intro l h
  induction h with
  | nil => intro f _; cases f <;> rfl
  | plain m rest hrole htc htcid hname hrest ih =>
    intro f hf
    cases f with
    | zero => simp at hf
    | succ n =>
      simp only [wellChainedGo]
      rw [if_neg (by rw [htc]; simp)]
      rw [bne_iff_ne.mpr hrole, ih n (by simp only [List.length_cons] at hf; omega)]
      rfl
  | group m tcs tools rest hrole htc htcid hname hlen htools hrest ih =>
    intro f hf
    cases f with
    | zero => simp at hf
    | succ n =>
      simp only [wellChainedGo]
      rw [if_pos (by rw [hrole, htc]; simp)]
      have hgd : m.tool_calls.getD [] = tcs := by rw [htc]; rfl
      have htw : (tools ++ rest).takeWhile (fun r => r.role == "tool") = tools :=
        takeWhile_tools (fun r hr => (htools r hr).1) hrest
      rw [htw, hgd, List.drop_left]
      rw [beq_iff_eq.mpr hlen,
        List.all_eq_true.mpr (fun r hr => (htools r hr).2.2),
        ih n (by simp only [List.length_cons, List.length_append] at hf; omega)]
      rfl

theorem i1holds_tools : ∀ (tools rest seen : List Msg) (m : Msg), m ∈ seen →
    (∀ r ∈ tools, isMatchingAssistant r m = true) →
    i1holds seen (tools ++ rest) = i1holds (seen ++ tools) rest := by
  intro tools
  induction tools with
  | nil => intro rest seen m _ _; rw [List.nil_append, List.append_nil]
  | cons t ts ih =>
    intro rest seen m hm hall
    simp only [List.cons_append, i1holds]
    have hcond : (if t.role == "tool" then
        seen.any (fun prev => isMatchingAssistant t prev) else true) = true := by
      cases hT : (t.role == "tool") with
      | true =>
        rw [if_pos rfl]
        exact List.any_eq_true.mpr ⟨m, hm, hall t (List.mem_cons_self t ts)⟩
      | false => rw [if_neg (by simp)]
    rw [hcond]
    simp only [Bool.true_and, List.append_eq]
    rw [ih rest (seen ++ [t]) m (List.mem_append.mpr (Or.inl hm))
      (fun r hr => hall r (List.mem_cons_of_mem t hr))]
    rw [List.append_assoc, List.singleton_append]

theorem canon_i1 : ∀ {l : List Msg}, Canon l → ∀ seen, i1holds seen l = true := by
  intro l h
  induction h with
  | nil => intro seen; rfl
  | plain m rest hrole htc htcid hname hrest ih =>
    intro seen
    simp only [i1holds]
    rw [if_neg (by rw [beq_eq_false_iff_ne.mpr hrole]; simp)]
    rw [ih (seen ++ [m])]
    rfl
  | group m tcs tools rest hrole htc htcid hname hlen htools hrest ih =>
    intro seen
    simp only [i1holds]
    rw [if_neg (by rw [hrole]; decide)]
    have hmatch : ∀ r ∈ tools, isMatchingAssistant r m = true := by
      intro r hr
      unfold isMatchingAssistant
      rw [hrole, htc]
      simp only [Option.getD_some]
      rw [(htools r hr).2.2]
      simp
    rw [i1holds_tools tools rest (seen ++ [m]) m
      (List.mem_append.mpr (Or.inr (List.mem_singleton.mpr rfl))) hmatch]
    rw [ih ((seen ++ [m]) ++ tools)]
    rfl

/-! ### Pass-through of plain user and assistant messages -/

theorem filter_pass1 : ∀ (l seen : List Msg),
    (pass1Go seen l).filter isPlainUA = l.filter isPlainUA := by
  intro l
  induction l with
  | nil => intro seen; rfl
  | cons m rest ih =>
    intro seen
    simp only [pass1Go]
    cases hk : keepMsg seen m with
    | true =>
      rw [if_pos rfl]
      simp only [List.filter_cons]
      rw [ih (seen ++ [m])]
    | false =>
      rw [if_neg (by simp)]
      have hTool : m.role = "tool" := by
        unfold keepMsg at hk
        cases hT : (m.role == "tool") with
        | true => exact beq_iff_eq.mp hT
        | false => rw [hT] at hk; simp at hk
      have hpl : isPlainUA m = false := by
        unfold isPlainUA
        rw [hTool]
        simp
      rw [List.filter_cons, if_neg (by rw [hpl]; simp)]
      exact ih (seen ++ [m])

theorem isPlainUA_emitTool (r : Msg) : isPlainUA (emitTool r) = false := by
  unfold isPlainUA emitTool
  simp

theorem filter_pass2Go : ∀ (f : Nat) (l : List Msg), l.length ≤ f →
    (pass2Go f l).filter isPlainUA = (l.filter isPlainUA).map emitPlain := by
  intro f
  induction f with
  | zero =>
    intro l hl
    have : l = [] := List.eq_nil_of_length_eq_zero (Nat.le_zero.mp hl)
    subst this
    rfl
  | succ n ih =>
    intro l hl
    cases l with
    | nil => rfl
    | cons m rest =>
      simp only [List.length_cons, Nat.add_le_add_iff_right] at hl
      simp only [pass2Go]
      cases hA : (m.role == "assistant" && m.tool_calls.isSome) with
      | true =>
        have hrole : m.role = "assistant" := beq_iff_eq.mp (Bool.and_eq_true _ _ ▸ hA).1
        obtain ⟨tcs, htc⟩ := Option.isSome_iff_exists.mp (Bool.and_eq_true _ _ ▸ hA).2
        have hplm : isPlainUA m = false := by
          unfold isPlainUA
          rw [hrole, htc]
          simp
        rw [if_pos rfl]
        cases hlen : ((collectResponses (m.tool_calls.getD []) rest).length
            == (m.tool_calls.getD []).length) with
        | true =>
          rw [if_pos rfl]
          have hplA : isPlainUA (emitAssistant m) = false := by
            unfold isPlainUA emitAssistant
            simp only [htc]
            simp
          rw [List.filter_cons, if_neg (by rw [hplA]; simp), List.filter_append]
          have hmapnil : ((collectResponses (m.tool_calls.getD []) rest).map
              emitTool).filter isPlainUA = [] := by
            rw [List.filter_eq_nil_iff]
            intro a ha
            obtain ⟨r0, _, hr0e⟩ := List.mem_map.mp ha
            rw [← hr0e, isPlainUA_emitTool]
            simp
          rw [hmapnil, List.nil_append]
          rw [ih _ (le_trans (by simp only [List.length_drop]; omega) hl)]
          rw [List.filter_cons, if_neg (by rw [hplm]; simp)]
          conv_rhs => rw [← List.take_append_drop
            (collectResponses (m.tool_calls.getD []) rest).length rest]
          rw [List.filter_append]
          have htaknil : (rest.take (collectResponses (m.tool_calls.getD []) rest).length).filter
              isPlainUA = [] := by
            rw [List.filter_eq_nil_iff]
            intro a ha
            obtain ⟨h1, h2⟩ := collect_take_not_ua _ _ a ha
            unfold isPlainUA
            rw [beq_eq_false_iff_ne.mpr h1, beq_eq_false_iff_ne.mpr h2]
            simp
          rw [htaknil, List.nil_append]
        | false =>
          rw [if_neg (by simp)]
          rw [ih _ (le_trans (by simp only [List.length_drop]; omega) hl)]
          rw [List.filter_cons, if_neg (by rw [hplm]; simp)]
          conv_rhs => rw [← List.take_append_drop (countLeadingTools rest) rest]
          rw [List.filter_append]
          have htaknil : (rest.take (countLeadingTools rest)).filter isPlainUA = [] := by
            rw [List.filter_eq_nil_iff]
            intro a ha
            have h1 := take_countLeadingTools _ a ha
            unfold isPlainUA
            rw [h1]
            simp
          rw [htaknil, List.nil_append]
      | false =>
        rw [if_neg (by simp)]
        cases hT : (m.role == "tool") with
        | true =>
          rw [if_pos rfl]
          have hplm : isPlainUA m = false := by
            unfold isPlainUA
            rw [beq_iff_eq.mp hT]
            simp
          rw [ih rest hl, List.filter_cons, if_neg (by rw [hplm]; simp)]
        | false =>
          rw [if_neg (by simp)]
          have heq : isPlainUA (emitPlain m) = isPlainUA m := by
            cases htc2 : m.tool_calls with
            | none => unfold isPlainUA emitPlain; rw [htc2]
            | some v =>
              rw [htc2] at hA
              simp only [Option.isSome_some, Bool.and_true] at hA
              unfold isPlainUA emitPlain
              rw [htc2, hA]
              simp
          rw [List.filter_cons, List.filter_cons, heq]
          cases hp : isPlainUA m with
          | true =>
            rw [if_pos rfl, if_pos rfl, List.map_cons]
            rw [ih rest hl]
          | false =>
            rw [if_neg (by simp), if_neg (by simp)]
            exact ih rest hl

/-! ### The backward-expansion loop of the window builder -/

theorem expand_spec : ∀ (parse : String → Option Msg) (r w : List StoredMsg), w ≠ [] →
    ∃ j, j ≤ r.length ∧ expand parse w r = w ++ r.take j ∧
      (∀ i < j, ∃ sm, (w ++ r.take i).getLast? = some sm ∧ isChainMsg parse sm = true) ∧
      (j = r.length ∨
        ∃ sm, (w ++ r.take j).getLast? = some sm ∧ isChainMsg parse sm = false) := by
  intro parse r
  induction r with
  | nil =>
    intro w _
    refine ⟨0, le_refl 0, by simp [expand], fun i hi => absurd hi (by omega), Or.inl rfl⟩
  | cons o rest ih =>
    intro w hw
    obtain ⟨last, hlast⟩ : ∃ x, w.getLast? = some x := by
      cases hgl : w.getLast? with
      | none => exact absurd (List.getLast?_eq_none_iff.mp hgl) hw
      | some x => exact ⟨x, rfl⟩
    cases hch : isChainMsg parse last with
    | true =>
      obtain ⟨j, hle, heq, hsteps, hstop⟩ := ih (w ++ [o]) (by simp)
      have hexp : expand parse w (o :: rest) = expand parse (w ++ [o]) rest := by
        simp only [expand, hlast]
        rw [if_pos hch]
      refine ⟨j + 1, by simp only [List.length_cons]; omega, ?_, ?_, ?_⟩
      · rw [hexp, heq, List.take_succ_cons]
        simp [List.append_assoc]
      · intro i hi
        cases i with
        | zero =>
          refine ⟨last, ?_, hch⟩
          rw [List.take_zero, List.append_nil, hlast]
        | succ i0 =>
          obtain ⟨sm, hsm, hsmch⟩ := hsteps i0 (by omega)
          refine ⟨sm, ?_, hsmch⟩
          rw [List.take_succ_cons,
            show w ++ o :: List.take i0 rest = w ++ [o] ++ List.take i0 rest by
              simp [List.append_assoc]]
          exact hsm
      · cases hstop with
        | inl h => exact Or.inl (by simp only [List.length_cons]; omega)
        | inr h =>
          obtain ⟨sm, hsm, hsmch⟩ := h
          refine Or.inr ⟨sm, ?_, hsmch⟩
          rw [List.take_succ_cons,
            show w ++ o :: List.take j rest = w ++ [o] ++ List.take j rest by
              simp [List.append_assoc]]
          exact hsm
    | false =>
      refine ⟨0, Nat.zero_le _, ?_, fun i hi => absurd hi (by omega),
        Or.inr ⟨last, ?_, hch⟩⟩
      · simp only [expand, hlast]
        rw [if_neg (by simp [hch]), List.take_zero, List.append_nil]
      · rw [List.take_zero, List.append_nil, hlast]

theorem get_history_length (N : Nat) (parse : String → Option Msg)
    (allDesc : List StoredMsg) :
    (get_history N parse allDesc).length = (windowDesc N parse allDesc).length := by
  simp [get_history, windowOrdered, List.length_map, List.length_reverse]

theorem windowDesc_spec (N : Nat) (parse : String → Option Msg) (allDesc : List StoredMsg) :
    windowDesc N parse allDesc = [] ∨
    ∃ j, j ≤ ((recentOf N allDesc).drop (truncatedOf N allDesc).length).length ∧
      windowDesc N parse allDesc
        = truncatedOf N allDesc
          ++ ((recentOf N allDesc).drop (truncatedOf N allDesc).length).take j ∧
      (0 < j → ∃ sm, (truncatedOf N allDesc).getLast? = some sm ∧
        isChainMsg parse sm = true) := by
  cases hE : (recentOf N allDesc).isEmpty with
  | true =>
    left
    unfold windowDesc
    rw [if_pos (by rw [hE])]
  | false =>
    right
    have hrec : recentOf N allDesc ≠ [] := by
      intro h
      rw [h] at hE
      simp at hE
    have hN : 0 < N := by
      by_contra h
      push_neg at h
      have : N = 0 := by omega
      subst this
      exact hrec (by simp [recentOf])
    have htr : truncatedOf N allDesc ≠ [] := by
      unfold truncatedOf
      rw [Ne, List.take_eq_nil_iff]
      push_neg
      exact ⟨by omega, hrec⟩
    obtain ⟨j, hle, heq, hsteps, _⟩ :=
      expand_spec parse ((recentOf N allDesc).drop (truncatedOf N allDesc).length)
        (truncatedOf N allDesc) htr
    refine ⟨j, hle, ?_, ?_⟩
    · unfold windowDesc
      rw [if_neg (by rw [hE]; simp)]
      exact heq
    · intro hj
      obtain ⟨sm, hsm, hch⟩ := hsteps 0 hj
      rw [List.take_zero, List.append_nil] at hsm
      exact ⟨sm, hsm, hch⟩

/-! ### The completion-schedule model of asyncio.gather -/

theorem fillSlot_length {β : Type} : ∀ (slots : List (Option β)) (i : Nat) (b : β),
    (fillSlot slots i b).length = slots.length := by
  intro slots
  induction slots with
  | nil => intro i b; rfl
  | cons s rest ih =>
    intro i b
    cases i with
    | zero => rfl
    | succ n => simp only [fillSlot, List.length_cons]; rw [ih]

theorem fillSlot_get_self {β : Type} : ∀ (slots : List (Option β)) (i : Nat) (b : β),
    i < slots.length → (fillSlot slots i b)[i]? = some (some b) := by
  intro slots
  induction slots with
  | nil => intro i b h; simp at h
  | cons s rest ih =>
    intro i b h
    cases i with
    | zero => simp only [fillSlot, List.getElem?_cons_zero]
    | succ n =>
      simp only [fillSlot, List.getElem?_cons_succ]
      exact ih n b (by simp only [List.length_cons] at h; omega)

theorem fillSlot_get_other {β : Type} : ∀ (slots : List (Option β)) (i : Nat) (b : β)
    (j : Nat), j ≠ i → (fillSlot slots i b)[j]? = slots[j]? := by
  intro slots
  induction slots with
  | nil => intro i b j _; rfl
  | cons s rest ih =>
    intro i b j hji
    cases i with
    | zero =>
      cases j with
      | zero => exact absurd rfl hji
      | succ jn => simp [fillSlot, List.getElem?_cons_succ]
    | succ n =>
      cases j with
      | zero => simp only [fillSlot, List.getElem?_cons_zero]
      | succ jn =>
        simp only [fillSlot, List.getElem?_cons_succ]
        exact ih n b jn (by omega)

theorem gatherExec_length {α β : Type} (calls : List α) (run : α → β) :
    ∀ (sched : List Nat) (slots : List (Option β)),
    (gatherExec calls run sched slots).length = slots.length := by
  intro sched
  induction sched with
  | nil => intro slots; rfl
  | cons i sched2 ih =>
    intro slots
    simp only [gatherExec]
    cases hc : calls[i]? with
    | some c => rw [ih, fillSlot_length]
    | none => exact ih slots

theorem gatherExec_get {α β : Type} (calls : List α) (run : α → β) :
    ∀ (sched : List Nat) (slots : List (Option β)), slots.length = calls.length →
    ∀ j, j < calls.length →
    (gatherExec calls run sched slots)[j]?
      = if j ∈ sched then calls[j]?.map (fun c => some (run c)) else slots[j]? := by
  intro sched
  induction sched with
  | nil =>
    intro slots _ j _
    simp [gatherExec]
  | cons i sched2 ih =>
    intro slots hslots j hj
    simp only [gatherExec]
    cases hc : calls[i]? with
    | some c =>
      rw [ih (fillSlot slots i (run c)) (by rw [fillSlot_length]; exact hslots) j hj]
      by_cases hji : j = i
      · subst hji
        by_cases hmem : j ∈ sched2
        · rw [if_pos hmem, if_pos (List.mem_cons_self j sched2)]
        · rw [if_neg hmem, if_pos (List.mem_cons_self j sched2)]
          rw [fillSlot_get_self slots j (run c) (by omega), hc, Option.map_some']
      · by_cases hmem : j ∈ sched2
        · rw [if_pos hmem, if_pos (List.mem_cons_of_mem i hmem)]
        · rw [if_neg hmem, if_neg (by
            intro h
            cases List.mem_cons.mp h with
            | inl h2 => exact hji h2
            | inr h2 => exact hmem h2)]
          exact fillSlot_get_other slots i (run c) j hji
    | none =>
      have hge : calls.length ≤ i := by
        by_contra hlt
        push_neg at hlt
        rw [List.getElem?_eq_getElem hlt] at hc
        exact absurd hc (by simp)
      have hji : j ≠ i := by omega
      rw [ih slots hslots j hj]
      by_cases hmem : j ∈ sched2
      · rw [if_pos hmem, if_pos (List.mem_cons_of_mem i hmem)]
      · rw [if_neg hmem, if_neg (by
          intro h
          cases List.mem_cons.mp h with
          | inl h2 => exact hji h2
          | inr h2 => exact hmem h2)]

theorem asyncGather_perm {α β : Type} (calls : List α) (run : α → β) (sched : List Nat)
    (hp : sched.Perm (List.range calls.length)) :
    asyncGather calls run sched = calls.map (fun c => some (run c)) := by
  apply List.ext_getElem?
  intro j
  by_cases hj : j < calls.length
  · unfold asyncGather
    rw [gatherExec_get calls run sched (calls.map fun _ => (none : Option β))
      (by rw [List.length_map]) j hj]
    rw [if_pos (hp.mem_iff.mpr (List.mem_range.mpr hj))]
    rw [List.getElem?_map]
  · push_neg at hj
    rw [List.getElem?_eq_none (by
      unfold asyncGather
      rw [gatherExec_length, List.length_map]
      exact hj)]
    rw [List.getElem?_eq_none (by rw [List.length_map]; exact hj)]

/-! ## Claim theorems -/

/-- C1 (corrected): for every stored history, the chain validator output
satisfies: (a) every tool message has, earlier in the output, an assistant
message whose tool_calls contains a matching entry (invariant I1); (b) every
assistant message carrying tool_calls is immediately followed by exactly as
many tool messages as it has tool_calls entries, each matching SOME entry,
and a group whose collected responses are fewer than its entries is dropped
whole; (c) plain user messages and assistant messages without tool_calls
pass through in their original relative order as role/content messages.
Unlike the original claim, one entry may receive several responses while
another receives none (the code only compares counts), and a system message
lying between an assistant message and its collected tool responses is
dropped, so system messages are not preserved in general. -/
theorem c1_chain_validator_amended (l : List Msg) :
    i1holds [] (chainValidator l) = true ∧
    wellChained (chainValidator l) = true ∧
    (chainValidator l).filter isPlainUA = (l.filter isPlainUA).map emitPlain := by
  have hc : Canon (chainValidator l) :=
    pass2Go_canon (pass1 l).length (pass1 l) (le_refl _)
  refine ⟨canon_i1 hc [],
    canon_wellChained hc (chainValidator l).length (le_refl _), ?_⟩
  have h2 : (pass2Go (pass1 l).length (pass1 l)).filter isPlainUA
      = ((pass1 l).filter isPlainUA).map emitPlain := filter_pass2Go _ _ (le_refl _)
  have h1 : (pass1Go [] l).filter isPlainUA = l.filter isPlainUA := filter_pass1 l []
  calc (chainValidator l).filter isPlainUA
      = ((pass1 l).filter isPlainUA).map emitPlain := h2
    _ = (l.filter isPlainUA).map emitPlain := by
        rw [show (pass1 l).filter isPlainUA = l.filter isPlainUA from h1]

/-- C1 counterexample: on the concrete stored history exC1 the claim as
stated fails: entry g of the assistant message receives no tool response
while entry f receives two (both match by name), and the system message
standing between the assistant message and its responses is dropped instead
of passing through. -/
theorem c1_claim_counterexample : claimC1holds exC1 = false := by decide

/-- C10 (confirmed): the two-pass chain validator is idempotent; applied to
its own output it returns that output unchanged. -/
theorem c10_validator_idempotent (l : List Msg) :
    chainValidator (chainValidator l) = chainValidator l := by
  have hc : Canon (chainValidator l) :=
    pass2Go_canon (pass1 l).length (pass1 l) (le_refl _)
  have h1 : pass1 (chainValidator l) = chainValidator l := canon_pass1_fix hc []
  show pass2 (pass1 (chainValidator l)) = chainValidator l
  rw [h1]
  exact canon_pass2_fix hc (chainValidator l).length (le_refl _)

/-- C8 (corrected): when every entry of an assistant message has a matching
response (the count check passes), pass 2 emits the assistant message
followed by the collected responses in DISCOVERY order, the order in which
they occur in the input sequence (the collected list is a sublist of the
input tail), not reordered into tool_calls order as the claim stated. -/
theorem c8_emission_order_amended (m : Msg) (rest : List Msg) (tcs : List ToolCallEntry)
    (hrole : m.role = "assistant") (htc : m.tool_calls = some tcs)
    (hlen : (collectResponses tcs rest).length = tcs.length) :
    pass2 (m :: rest)
      = emitAssistant m ::
        ((collectResponses tcs rest).map emitTool
          ++ pass2 (rest.drop (collectResponses tcs rest).length)) ∧
    List.Sublist (collectResponses tcs rest) rest := by
  refine ⟨?_, collect_sublist tcs rest⟩
  show pass2Go (m :: rest).length (m :: rest) = _
  simp only [List.length_cons]
  simp only [pass2Go]
  rw [if_pos (by rw [hrole, htc]; simp)]
  have hgd : m.tool_calls.getD [] = tcs := by rw [htc]; rfl
  rw [hgd]
  rw [if_pos (beq_iff_eq.mpr hlen)]
  rw [pass2Go_fuel rest.length (rest.drop (collectResponses tcs rest).length)
    (rest.drop (collectResponses tcs rest).length).length
    (by simp only [List.length_drop]; omega) (le_refl _)]
  rfl

/-- C8 witness: the amended emission shape evaluated on the concrete
out-of-order history exC8 (responses stored g before f). -/
theorem c8_emission_order_witness :
    pass2 (asst0 :: [tResG, tResF])
      = emitAssistant asst0 ::
        ((collectResponses [tcE1, tcE2] [tResG, tResF]).map emitTool
          ++ pass2 ([tResG, tResF].drop
              (collectResponses [tcE1, tcE2] [tResG, tResF]).length)) :=
  (c8_emission_order_amended asst0 [tResG, tResF] [tcE1, tcE2] rfl rfl (by decide)).1

/-- C8 counterexample: on exC8 the validator returns the responses in
discovery order g, f; the claim as stated demands tool_calls order f, g. -/
theorem c8_claim_counterexample :
    chainValidator exC8 = [asst0, tResG, tResF] ∧
    chainValidator exC8 ≠ [asst0, tResF, tResG] := ⟨by decide, by decide⟩

/-- C2 (confirmed): for every completion schedule that is a permutation of
the input indices (every call completes exactly once, in any order), the
gather model returns exactly one result slot per input call, in input order:
slot i holds the result of call i regardless of completion order. -/
theorem c2_dispatch_order {α : Type} (reg : String → Option (α → Except String String))
    (parseJson : String → Except String α) (emptyArgs : α)
    (tcs : List ToolCallReq) (sched : List Nat)
    (hp : sched.Perm (List.range tcs.length)) :
    (asyncGather tcs (execute_tool reg parseJson emptyArgs) sched).length = tcs.length ∧
    asyncGather tcs (execute_tool reg parseJson emptyArgs) sched
      = tcs.map (fun c => some (execute_tool reg parseJson emptyArgs c)) := by
  have h := asyncGather_perm tcs (execute_tool reg parseJson emptyArgs) sched hp
  exact ⟨by rw [h, List.length_map], h⟩

/-- C2 witness: two calls where the second (fast) call completes before the
first (slow) one — schedule [1, 0] — and the results still come back in
input order slow, calculate. -/
theorem c2_dispatch_order_witness :
    ([1, 0] : List Nat).Perm (List.range 2) ∧
    asyncGather [tcSlow, tcCalc] (execute_tool regW parseJsonW 0) [1, 0]
      = [some (execute_tool regW parseJsonW 0 tcSlow),
         some (execute_tool regW parseJsonW 0 tcCalc)] :=
  ⟨by decide, (c2_dispatch_order regW parseJsonW 0 [tcSlow, tcCalc] [1, 0] (by decide)).2⟩

/-- C5 (confirmed): execute_tool is total — every call produces a tool-role
message carrying the request id and tool name; an unregistered tool yields
the synthesized not-found text, a successful tool run yields its stringified
value, and an argument-parse or tool failure yields the synthesized failure
text; and one failing or unknown call never disturbs sibling results: under
any completion schedule each slot holds exactly its own call result. -/
theorem c5_execute_tool_total {α : Type} (reg : String → Option (α → Except String String))
    (parseJson : String → Except String α) (emptyArgs : α) (tc : ToolCallReq) :
    (execute_tool reg parseJson emptyArgs tc).role = "tool" ∧
    (execute_tool reg parseJson emptyArgs tc).tool_call_id = some tc.id ∧
    (execute_tool reg parseJson emptyArgs tc).name = some tc.name ∧
    (reg tc.name = none →
      (execute_tool reg parseJson emptyArgs tc).content = notFoundText tc.name) ∧
    (∀ f args r, reg tc.name = some f →
      parseToolArgs parseJson emptyArgs tc.arguments = Except.ok args →
      f args = Except.ok r →
      (execute_tool reg parseJson emptyArgs tc).content = r) ∧
    (∀ f e, reg tc.name = some f →
      parseToolArgs parseJson emptyArgs tc.arguments = Except.error e →
      (execute_tool reg parseJson emptyArgs tc).content = failText e) ∧
    (∀ f args e, reg tc.name = some f →
      parseToolArgs parseJson emptyArgs tc.arguments = Except.ok args →
      f args = Except.error e →
      (execute_tool reg parseJson emptyArgs tc).content = failText e) ∧
    (∀ (tcs : List ToolCallReq) (sched : List Nat),
      sched.Perm (List.range tcs.length) →
      asyncGather tcs (execute_tool reg parseJson emptyArgs) sched
        = tcs.map (fun c => some (execute_tool reg parseJson emptyArgs c))) := by
  have hfields : ∃ s, execute_tool reg parseJson emptyArgs tc
      = ⟨"tool", s, none, some tc.id, some tc.name⟩ := by
    unfold execute_tool
    split
    · exact ⟨_, rfl⟩
    · split
      · exact ⟨_, rfl⟩
      · split
        · exact ⟨_, rfl⟩
        · exact ⟨_, rfl⟩
  obtain ⟨s, hs⟩ := hfields
  refine ⟨by rw [hs], by rw [hs], by rw [hs], ?_, ?_, ?_, ?_, ?_⟩
  · intro h
    simp [execute_tool, h]
  · intro f args r h1 h2 h3
    simp [execute_tool, h1, h2, h3]
  · intro f e h1 h2
    simp [execute_tool, h1, h2]
  · intro f args e h1 h2 h3
    simp [execute_tool, h1, h2, h3]
  · intro tcs sched hp
    exact asyncGather_perm tcs (execute_tool reg parseJson emptyArgs) sched hp

/-- C5 witness: an unknown tool and a successful calculate call, then the
pair dispatched under the completion schedule [1, 0] — the unknown-tool
error neither aborts nor displaces the sibling result. -/
theorem c5_execute_tool_total_witness :
    (execute_tool regW parseJsonW 0 tcUnknown).content = notFoundText "unknown_tool" ∧
    (execute_tool regW parseJsonW 0 tcCalc).content = "4" ∧
    asyncGather [tcUnknown, tcCalc] (execute_tool regW parseJsonW 0) [1, 0]
      = [some (execute_tool regW parseJsonW 0 tcUnknown),
         some (execute_tool regW parseJsonW 0 tcCalc)] :=
  ⟨(c5_execute_tool_total regW parseJsonW 0 tcUnknown).2.2.2.1 rfl,
   (c5_execute_tool_total regW parseJsonW 0 tcCalc).2.2.2.2.1 calcFn 0 "4" rfl rfl rfl,
   (c5_execute_tool_total regW parseJsonW 0 tcCalc).2.2.2.2.2.2.2
     [tcUnknown, tcCalc] [1, 0] (by decide)⟩

/-- C3 (confirmed): the window get_history returns is never longer than
twice the configured maximum (the fetched buffer size); whenever it exceeds
the nominal maximum N, that is because the naive N-window ended inside a
chain (its oldest message parsed to a tool message or an assistant message
with a tool_calls key), i.e. expansion past the bound was required; and the
final window is always a prefix of the newest-first buffer — expansion only
ever added older messages, never newer ones. -/
theorem c3_window_bounds (N : Nat) (parse : String → Option Msg)
    (allDesc : List StoredMsg) :
    (get_history N parse allDesc).length ≤ 2 * N ∧
    ((get_history N parse allDesc).length > N →
      ∃ sm, (truncatedOf N allDesc).getLast? = some sm ∧
        isChainMsg parse sm = true) ∧
    (∃ k, windowDesc N parse allDesc = (recentOf N allDesc).take k) := by
  have hlen := get_history_length N parse allDesc
  cases windowDesc_spec N parse allDesc with
  | inl h =>
    refine ⟨?_, ?_, ⟨0, by rw [h, List.take_zero]⟩⟩
    · rw [hlen, h]
      simp
    · intro hgt
      rw [hlen, h] at hgt
      simp at hgt
  | inr h =>
    obtain ⟨j, hle, heq, hstep⟩ := h
    have hwlen : (windowDesc N parse allDesc).length
        = (truncatedOf N allDesc).length + j := by
      rw [heq, List.length_append, List.length_take, min_eq_left hle]
    have htl : (truncatedOf N allDesc).length ≤ N := by
      unfold truncatedOf
      rw [List.length_take]
      omega
    refine ⟨?_, ?_, ?_⟩
    · rw [hlen, hwlen]
      have h1 : j ≤ (recentOf N allDesc).length - (truncatedOf N allDesc).length := by
        rw [List.length_drop] at hle
        omega
      have h2 : (recentOf N allDesc).length ≤ 2 * N := by
        unfold recentOf
        rw [List.length_take]
        omega
      have h3 : (truncatedOf N allDesc).length ≤ (recentOf N allDesc).length := by
        unfold truncatedOf
        rw [List.length_take]
        omega
      omega
    · intro hgt
      rw [hlen, hwlen] at hgt
      exact hstep (by omega)
    · refine ⟨(truncatedOf N allDesc).length + j, ?_⟩
      rw [heq, List.take_add]
      congr 1
      have : (recentOf N allDesc).take (truncatedOf N allDesc).length
          = truncatedOf N allDesc := by
        unfold truncatedOf
        rw [List.length_take]
        apply List.take_eq_take.mpr
        rw [min_eq_left (Nat.min_le_right N (recentOf N allDesc).length)]
      rw [this]

/-- C3 witness: with N = 1 and the three-message store storeC3 the naive
window cuts the tool chain, so the returned window has length 2 > 1 and the
oldest message of the naive window is indeed chain-like. -/
theorem c3_window_bounds_witness :
    (get_history 1 parseW storeC3).length > 1 ∧
    ∃ sm, (truncatedOf 1 storeC3).getLast? = some sm ∧
      isChainMsg parseW sm = true :=
  ⟨by decide, (c3_window_bounds 1 parseW storeC3).2.1 (by decide)⟩

/-- C4 (corrected): the expansion loop of get_history, started on a
non-empty candidate window, adds some prefix of the older buffer; at every
step before the last the (current) oldest window message parsed to a tool
message or to an assistant message WITH A tool_calls KEY — presence, even an
empty list, unlike the claimed non-empty condition — and it stops either
because the buffer is exhausted (returning what was gathered) or because the
oldest message fails that test (a user message, a plain assistant message,
any other role, an assistant without the key, or unparseable content). -/
theorem c4_expansion_rule_amended (parse : String → Option Msg)
    (w r : List StoredMsg) (hw : w ≠ []) :
    ∃ j, j ≤ r.length ∧ expand parse w r = w ++ r.take j ∧
      (∀ i < j, ∃ sm, (w ++ r.take i).getLast? = some sm ∧
        isChainMsg parse sm = true) ∧
      (j = r.length ∨
        ∃ sm, (w ++ r.take j).getLast? = some sm ∧ isChainMsg parse sm = false) :=
  expand_spec parse r w hw

/-- C4 witness: the expansion characterization evaluated on a singleton
window whose message parses to an assistant with an empty tool_calls list;
the loop pulls in the older user message (j = 1). -/
theorem c4_expansion_rule_witness :
    ([⟨"assistant", "AE"⟩] : List StoredMsg) ≠ [] ∧
    ∃ j, j ≤ ([⟨"user", "U"⟩] : List StoredMsg).length ∧
      expand parseW [⟨"assistant", "AE"⟩] [⟨"user", "U"⟩]
        = [⟨"assistant", "AE"⟩] ++ ([⟨"user", "U"⟩] : List StoredMsg).take j ∧
      (∀ i < j, ∃ sm, (([⟨"assistant", "AE"⟩] : List StoredMsg)
          ++ ([⟨"user", "U"⟩] : List StoredMsg).take i).getLast? = some sm ∧
        isChainMsg parseW sm = true) ∧
      (j = ([⟨"user", "U"⟩] : List StoredMsg).length ∨
        ∃ sm, (([⟨"assistant", "AE"⟩] : List StoredMsg)
            ++ ([⟨"user", "U"⟩] : List StoredMsg).take j).getLast? = some sm ∧
          isChainMsg parseW sm = false) :=
  ⟨by decide,
   c4_expansion_rule_amended parseW [⟨"assistant", "AE"⟩] [⟨"user", "U"⟩] (by decide)⟩

/-- C4 counterexample: the claim says expansion happens exactly while the
oldest window message is a tool message or an assistant with NON-EMPTY
tool_calls. On storeC4 with N = 1, the naive window is the single stored
assistant whose parsed dict carries tool_calls = [] — the claimed condition
is false — yet get_history expands the window to length 2, because the code
tests key presence, not non-emptiness. -/
theorem c4_claim_counterexample :
    truncatedOf 1 storeC4 = [⟨"assistant", "AE"⟩] ∧
    claimChainMsg parseW ⟨"assistant", "AE"⟩ = false ∧
    windowDesc 1 parseW storeC4 = [⟨"assistant", "AE"⟩, ⟨"user", "U"⟩] ∧
    (get_history 1 parseW storeC4).length = 2 :=
  ⟨by decide, by decide, by decide, by decide⟩

/-- C9 (corrected): when a stored row of the final window fails to parse,
get_history does not abort and does not skip the row either: the window
keeps its full length and the failing position is rendered as a fallback
message made of the stored role column and the raw content string. -/
theorem c9_parse_failure_fallback (N : Nat) (parse : String → Option Msg)
    (allDesc : List StoredMsg) :
    (get_history N parse allDesc).length = (windowOrdered N parse allDesc).length ∧
    ∀ (i : Nat) (sm : StoredMsg), (windowOrdered N parse allDesc)[i]? = some sm →
      parse sm.content = none →
      (get_history N parse allDesc)[i]? = some ⟨sm.role, sm.content, none, none, none⟩ := by
  constructor
  · unfold get_history
    rw [List.length_map]
  · intro i sm hi hp
    unfold get_history
    rw [List.getElem?_map, hi, Option.map_some']
    unfold renderMsg
    rw [hp]

/-- C9 witness: position 0 of the window over storeC9 is the unparseable row
and is rendered as the fallback user/BAD message. -/
theorem c9_parse_failure_fallback_witness :
    (windowOrdered 2 parseW storeC9)[0]? = some ⟨"user", "BAD"⟩ ∧
    (get_history 2 parseW storeC9)[0]? = some ⟨"user", "BAD", none, none, none⟩ :=
  ⟨by decide,
   (c9_parse_failure_fallback 2 parseW storeC9).2 0 (⟨"user", "BAD"⟩ : StoredMsg)
     (by decide) (by decide)⟩

/-- C9 counterexample: the claim says the malformed message is omitted from
the returned window; on storeC9 the returned window still has length 2 and
contains a fallback entry built from the malformed row instead. -/
theorem c9_claim_counterexample :
    get_history 2 parseW storeC9
      = [⟨"user", "BAD", none, none, none⟩, ⟨"user", "hello", none, none, none⟩] ∧
    (get_history 2 parseW storeC9).length ≠ 1 :=
  ⟨by decide, by decide⟩

/-- C6 (confirmed): when the decision call returns tool calls and the
summary call fails, the turn still succeeds with the fixed apology string as
its final answer, and the batch it persists is, in order: the new user
message, the assistant message recording the requested tool calls, one tool
result per requested call in request order, and a final assistant message
whose content is the apology string. -/
theorem c6_summary_failure_degrades {α : Type} (N : Nat)
    (parse : String → Option Msg) (dump : Msg → StoredMsg)
    (reg : String → Option (α → Except String String))
    (parseJson : String → Except String α) (emptyArgs : α)
    (store : List StoredMsg) (query : String) (sysPrompt : Option String)
    (decisionCall : List Msg → Except Unit Decision)
    (summaryCall : List Msg → Except Unit String) (d : Decision)
    (hd : decisionCall (format_messages_with_memory sysPrompt
      (get_history N parse store.reverse) query) = Except.ok d)
    (hne : d.tool_calls ≠ [])
    (hs : summaryCall (messagesForSummary reg parseJson emptyArgs
      (format_messages_with_memory sysPrompt (get_history N parse store.reverse) query)
      (userMsgOf query) d.content d.tool_calls) = Except.error ()) :
    llm_with_tools N parse dump reg parseJson emptyArgs store query sysPrompt
      decisionCall summaryCall
      = (store ++ ([userMsgOf query, assistantWithCalls d.content d.tool_calls]
          ++ d.tool_calls.map (execute_tool reg parseJson emptyArgs)
          ++ [(⟨"assistant", apologyText, none, none, none⟩ : Msg)]).map dump,
        Except.ok apologyText) := by
  unfold llm_with_tools
  split
  next heq =>
    rw [hd] at heq
    exact absurd heq (by simp)
  next d2 heq =>
    rw [hd] at heq
    injection heq with hdd
    subst hdd
    rw [if_neg (by
      intro h
      exact hne (List.isEmpty_iff.mp h))]
    unfold handle_tool_calls
    rw [hs]
    rfl

/-- C6 witness: empty store, a decision requesting one calculate call, and a
summary call that always fails — the turn returns the apology and persists
the four-message batch. -/
theorem c6_summary_failure_degrades_witness :
    llm_with_tools 1 parseW dumpW regW parseJsonW 0 [] "q" (some "sys")
      decisionCallW summaryFailW
      = ([] ++ ([userMsgOf "q", assistantWithCalls "" [tcCalc]]
          ++ [tcCalc].map (execute_tool regW parseJsonW 0)
          ++ [(⟨"assistant", apologyText, none, none, none⟩ : Msg)]).map dumpW,
        Except.ok apologyText) :=
  c6_summary_failure_degrades 1 parseW dumpW regW parseJsonW 0 [] "q" (some "sys")
    decisionCallW summaryFailW (⟨"", [tcCalc]⟩ : Decision) rfl (by decide) rfl

/-- C7 (confirmed): when the decision call fails, the turn returns a single
error and the persisted store is unchanged — no user message, assistant
message or tool result of the turn becomes visible. -/
theorem c7_decision_failure_fatal {α : Type} (N : Nat)
    (parse : String → Option Msg) (dump : Msg → StoredMsg)
    (reg : String → Option (α → Except String String))
    (parseJson : String → Except String α) (emptyArgs : α)
    (store : List StoredMsg) (query : String) (sysPrompt : Option String)
    (decisionCall : List Msg → Except Unit Decision)
    (summaryCall : List Msg → Except Unit String)
    (hd : decisionCall (format_messages_with_memory sysPrompt
      (get_history N parse store.reverse) query) = Except.error ()) :
    llm_with_tools N parse dump reg parseJson emptyArgs store query sysPrompt
      decisionCall summaryCall = (store, Except.error ()) := by
  unfold llm_with_tools
  split
  next heq => rfl
  next d heq =>
    rw [hd] at heq
    exact absurd heq (by simp)

/-- C7 witness: a failing decision call on a non-empty store leaves the
store exactly as it was and surfaces the single error. -/
theorem c7_decision_failure_fatal_witness :
    llm_with_tools 1 parseW dumpW regW parseJsonW 0 [⟨"user", "U"⟩] "q" (some "sys")
      decisionFailW summaryFailW = ([⟨"user", "U"⟩], Except.error ()) :=
  c7_decision_failure_fatal 1 parseW dumpW regW parseJsonW 0 [⟨"user", "U"⟩] "q"
    (some "sys") decisionFailW summaryFailW rfl

end Genesis
